import Mathlib

/-!
# Verification of the Company-Analyzer client core

Shallow embedding of the resilient request executor (`fetchWithRetry`),
the SSE stream consumer (`streamChat`), the job-polling state machine
(`startIndexing` / `pollStatus` in `indexing-status.tsx`) and the chat
transcript update loop (`handleSend` in `chat-interface.tsx`), together
with theorems settling the specification claims.

Text is modelled as `List Char`; bytes as `Nat` (each `< 256`); machine
scheduling of the single-threaded async runtime is modelled by explicit
fuel and by an explicit index of the suspension point during which a
cancellation (React effect cleanup) fires.
-/

namespace CompanyAnalyzer

/-! ## §1 Resilient request executor: `fetchWithRetry` (src/unnamed/part_001, lines 11-50)

An attempt of the underlying `fetch` either resolves with a response or
rejects with a JavaScript error carrying a `name` and a `message`.  The
per-attempt deadline elapsing makes the internal `AbortController` abort
the attempt, which surfaces as an error with name `"AbortError"`.  The
executor is modelled as a function of the (arbitrary) behaviour of each
attempt, `atts : Nat → AttemptResult α`, where `atts k` is the outcome of
the `k`-th `fetch` call (0-based). -/

/-- Outcome of one underlying `fetch` attempt: a resolved response of type
`α`, or a rejection with a JavaScript error (its `name` and `message`). -/
inductive AttemptResult (α : Type) where
  | ok (resp : α)
  | err (name msg : List Char)
deriving DecidableEq

/-- A thrown JavaScript `Error`: a `name` and a `message`. -/
structure JsError where
  name : List Char
  message : List Char
deriving DecidableEq

/-- The error name produced by an aborted `fetch`. -/
def abortErrorName : List Char := "AbortError".toList

/-- The error thrown by `fetchWithRetry` once the retry budget is
exhausted: `new Error('Request timed out. ...')` (part_001 line 41). -/
def timeoutError : JsError :=
  ⟨"Error".toList,
   "Request timed out. The server may be processing a large filing. Please wait and try again.".toList⟩

/-- The error thrown by the unreachable line after the loop
(`throw lastError || new Error('Request failed')`, part_001 line 49);
only produced on fuel exhaustion, which never happens when the fuel is
`retries + 1` (the loop runs at most `retries + 1` iterations). -/
def requestFailedError : JsError := ⟨"Error".toList, "Request failed".toList⟩

/-- The `for (let attempt = 0; attempt <= retries; attempt++)` loop of
`fetchWithRetry` (part_001 lines 19-46), from iteration `attempt` on.
Returns the final outcome (`Except.ok` a response, `Except.error` a
thrown error) together with the total number of `fetch` attempts
performed, counted from attempt 0.

* a resolved attempt returns the response immediately;
* a rejection whose error name is `"AbortError"` (the deadline elapsed)
  retries immediately when `attempt < retries`, with no backoff, and
  otherwise throws `timeoutError`;
* any other rejection is rethrown immediately (never retried). -/
def fetchLoop {α : Type} (atts : Nat → AttemptResult α) (retries : Nat) :
    Nat → Nat → Except JsError α × Nat
  | 0, attempt => (.error requestFailedError, attempt)
  | fuel + 1, attempt =>
    match atts attempt with
    | .ok r => (.ok r, attempt + 1)
    | .err name msg =>
      if name = abortErrorName then
        if attempt < retries then
          fetchLoop atts retries fuel (attempt + 1)
        else
          (.error timeoutError, attempt + 1)
      else
        (.error ⟨name, msg⟩, attempt + 1)

/-- `fetchWithRetry(url, options, timeout, retries)` as a function of the
per-attempt behaviour: runs the attempt loop starting at attempt 0.  The
fuel `retries + 1` is exactly the maximum number of loop iterations, so
the fuel-exhaustion branch of `fetchLoop` is never taken. -/
def fetchWithRetry {α : Type} (atts : Nat → AttemptResult α) (retries : Nat) :
    Except JsError α × Nat :=
  fetchLoop atts retries (retries + 1) 0

/-! ## §2 Job polling state machine (`indexing-status.tsx`, lines 26-85)

The `useEffect` body `startIndexing` awaits `indexCompany(ticker)`, then
runs `pollStatus`, which issues `getIndexStatus(ticker)` requests; on a
`"processing"` response it reschedules itself with `setTimeout(pollStatus,
1000)`.  The effect cleanup sets the `cancelled` flag.

The environment of one session is modelled by:
* `start : Except (List Char) (List Char)` — outcome of
  `await indexCompany(ticker)`: `.ok body` (the response's `status`
  string, which the component discards) or `.error msg` (the thrown
  error's message);
* `st : Nat → Except (List Char) IndexStatus` — outcome of the `k`-th
  `getIndexStatus(ticker)` call;
* `c : Option Nat` — the index of the suspension point during which the
  cleanup ran (`none` = never cancelled).  Suspension points are counted
  in program order: index 0 is the `indexCompany` await, index `2*k + 1`
  is the `k`-th `getIndexStatus` await, index `2*k + 2` is the
  `setTimeout` wait between status checks `k` and `k + 1`.  Since the
  runtime is single-threaded, the cleanup can only interleave at a
  suspension point, and every read of `cancelled` after the resumption of
  suspension `i` sees `true`. -/

/-- The `IndexStatus` payload of a status response
(part_001 lines 97-101). -/
structure IndexStatus where
  status : List Char
  progress : Nat
  message : Option (List Char)
deriving DecidableEq

/-- `cancelledBy c j = true` iff the `cancelled` flag reads `true` at a
program point reached after `j` suspension points have resumed: the
cleanup must have run during one of the suspensions `0, …, j - 1`. -/
def cancelledBy (c : Option Nat) (j : Nat) : Bool :=
  match c with
  | none => false
  | some i => i < j

/-- JavaScript `x || d` on an optional string (`currentStatus.message ||
"Indexing failed"`): the default is substituted when the field is absent
or is the empty string (which is falsy). -/
def jsOrElse (m : Option (List Char)) (d : List Char) : List Char :=
  match m with
  | none => d
  | some s => if s.isEmpty then d else s

/-- JavaScript `hay.includes(needle)`: contiguous substring test
(models `message.includes("already_indexed")`). -/
def containsSub : List Char → List Char → Bool
  | [], needle => needle.isEmpty
  | c :: t, needle => (decide ((c :: t).take needle.length = needle)) || containsSub t needle

/-- Observable events of one polling session, in order of occurrence:
a `getIndexStatus` request being issued (`statusReq k` is the `k`-th),
an `onComplete()` invocation, an `onError(msg)` invocation. -/
inductive SessionEv where
  | statusReq (k : Nat)
  | completeCb
  | errorCb (msg : List Char)
deriving DecidableEq

/-- The sentinel substring checked by the catch block
(`message.includes("already_indexed")`, indexing-status.tsx line 65). -/
def alreadyIndexedSentinel : List Char := "already_indexed".toList

/-- `pollStatus` (indexing-status.tsx lines 42-57), iterated from status
check `k`.  Returns the session events it causes together with the
rejection of the invocation at index `k` only (`some msg` when the `k`-th
`getIndexStatus` throws): rejections of the invocations scheduled later
via `setTimeout(pollStatus, 1000)` are unhandled promise rejections, so
they are discarded and reach no handler.

Per invocation: if `cancelled` reads `true` at the top, return without
issuing a request; otherwise issue status request `k` and await it.  On a
response: `"complete"` invokes `onComplete()`; `"error"` invokes
`onError(message || "Indexing failed")`; `"processing"` schedules the
next invocation; any other status (e.g. `"not_started"`) falls through
all branches and the session silently halts.  The `cancelled` flag is not
re-read after the await. -/
def pollStatus (st : Nat → Except (List Char) IndexStatus) (c : Option Nat) :
    Nat → Nat → List SessionEv × Option (List Char)
  | _, 0 => ([], none)
  | k, fuel + 1 =>
    if cancelledBy c (2 * k + 1) then ([], none)
    else
      match st k with
      | .error msg => ([.statusReq k], some msg)
      | .ok r =>
        if r.status = "complete".toList then
          ([.statusReq k, .completeCb], none)
        else if r.status = "error".toList then
          ([.statusReq k, .errorCb (jsOrElse r.message ("Indexing failed".toList))], none)
        else if r.status = "processing".toList then
          ([.statusReq k] ++ (pollStatus st c (k + 1) fuel).1, none)
        else
          ([.statusReq k], none)

/-- A status response reporting `"processing"` (any progress value, any
message). -/
def isProcessingResp (r : Except (List Char) IndexStatus) : Prop :=
  ∃ p m, r = .ok ⟨"processing".toList, p, m⟩

/-- `startIndexing` (indexing-status.tsx lines 30-72): awaits
`indexCompany`, then `await pollStatus()`.  The catch block covers the
start request and the *first* `pollStatus` invocation only; it re-reads
`cancelled`, and when not cancelled it invokes `onComplete()` when the
failure message contains the `already_indexed` sentinel, otherwise
`onError(message)`.  The start response body is never inspected.  The
catch point after a start failure has seen 1 resumed suspension; after a
first-status-check failure it has seen 2. -/
def startIndexing (start : Except (List Char) (List Char))
    (st : Nat → Except (List Char) IndexStatus) (c : Option Nat) (fuel : Nat) :
    List SessionEv :=
  match start with
  | .error msg =>
    if cancelledBy c 1 then []
    else if containsSub msg alreadyIndexedSentinel then [.completeCb]
    else [.errorCb msg]
  | .ok _ =>
    let r := pollStatus st c 0 fuel
    match r.2 with
    | none => r.1
    | some msg =>
      r.1 ++
        (if cancelledBy c 2 then []
         else if containsSub msg alreadyIndexedSentinel then [.completeCb]
         else [.errorCb msg])

/-! ## §3 SSE stream consumer: `streamChat` (src/unnamed/part_001, lines 208-249)

The generator holds a `TextDecoder` (incremental UTF-8 decoding with
carry-over of an incomplete trailing codepoint) and a text `buffer`.  Per
received byte chunk: decode, append to buffer, split on `"\n"`, keep the
last (possibly incomplete) element as the new buffer, and for every
preceding complete line starting with `"data: "` attempt `JSON.parse` of
the remainder, yielding the value and silently skipping parse failures.
At end of stream nothing is flushed.

Bytes are `Nat`s below 256.  JSON values keep the raw token of numbers
(the claims never compare numerically). -/

/-- A parsed JSON value, as produced by `JSON.parse`.  Numbers keep their
source token. -/
inductive Json where
  | null
  | bool (b : Bool)
  | num (raw : List Char)
  | str (s : List Char)
  | arr (elems : List Json)
  | obj (members : List (List Char × Json))

/-- The character x7b (opening curly brace). -/
def lbrace : Char := Char.ofNat 123

/-- The character x7d (closing curly brace). -/
def rbrace : Char := Char.ofNat 125

/-- JSON insignificant whitespace. -/
def isJsonWs (c : Char) : Bool := c = ' ' || c = '\t' || c = '\n' || c = '\r'

/-- Skip leading JSON whitespace. -/
def skipWs : List Char → List Char
  | [] => []
  | c :: r => if isJsonWs c then skipWs r else c :: r

/-- ASCII decimal digit test. -/
def isJsonDigit (c : Char) : Bool := 48 ≤ c.toNat && c.toNat ≤ 57

/-- Hexadecimal digit value. -/
def hexVal (c : Char) : Option Nat :=
  if 48 ≤ c.toNat ∧ c.toNat ≤ 57 then some (c.toNat - 48)
  else if 97 ≤ c.toNat ∧ c.toNat ≤ 102 then some (c.toNat - 87)
  else if 65 ≤ c.toNat ∧ c.toNat ≤ 70 then some (c.toNat - 55)
  else none

/-- Single-character JSON string escapes. -/
def simpleEscape (c : Char) : Option Char :=
  if c = '"' then some '"'
  else if c = '\\' then some '\\'
  else if c = '/' then some '/'
  else if c = 'b' then some (Char.ofNat 8)
  else if c = 'f' then some (Char.ofNat 12)
  else if c = 'n' then some '\n'
  else if c = 'r' then some '\r'
  else if c = 't' then some '\t'
  else none

/-- Parse the body of a JSON string after the opening quote, returning
the decoded characters and the remaining input after the closing quote. -/
def parseStringBody : List Char → Option (List Char × List Char)
  | [] => none
  | c :: r =>
    if c = '"' then some ([], r)
    else if c = '\\' then
      match r with
      | [] => none
      | 'u' :: r2 =>
        match r2 with
        | h1 :: h2 :: h3 :: h4 :: r3 =>
          match hexVal h1, hexVal h2, hexVal h3, hexVal h4 with
          | some a, some b, some d, some e =>
            match parseStringBody r3 with
            | some (s, rest) =>
              some (Char.ofNat (((a * 16 + b) * 16 + d) * 16 + e) :: s, rest)
            | none => none
          | _, _, _, _ => none
        | _ => none
      | e :: r2 =>
        match simpleEscape e with
        | some ch =>
          match parseStringBody r2 with
          | some (s, rest) => some (ch :: s, rest)
          | none => none
        | none => none
    else if c.toNat < 32 then none
    else
      match parseStringBody r with
      | some (s, rest) => some (c :: s, rest)
      | none => none

/-- Parse an optional JSON fraction part. -/
def parseFrac : List Char → Option (List Char × List Char)
  | '.' :: r =>
    let ds := r.takeWhile isJsonDigit
    if ds.isEmpty then none else some ('.' :: ds, r.dropWhile isJsonDigit)
  | l => some ([], l)

/-- Parse an optional JSON exponent part. -/
def parseExpPart : List Char → Option (List Char × List Char)
  | [] => some ([], [])
  | c :: r =>
    if c = 'e' ∨ c = 'E' then
      let p := match r with
        | s :: r2 => if s = '+' ∨ s = '-' then ([s], r2) else (([] : List Char), s :: r2)
        | [] => ([], [])
      let ds := p.2.takeWhile isJsonDigit
      if ds.isEmpty then none
      else some (c :: (p.1 ++ ds), p.2.dropWhile isJsonDigit)
    else some ([], c :: r)

/-- Parse a JSON number token (sign, integer part without leading zeros,
fraction, exponent), returning the raw token. -/
def parseNum (l : List Char) : Option (List Char × List Char) :=
  let p := match l with
    | '-' :: r => (['-'], r)
    | _ => (([] : List Char), l)
  let ds := p.2.takeWhile isJsonDigit
  let l2 := p.2.dropWhile isJsonDigit
  if ds.isEmpty then none
  else if 2 ≤ ds.length ∧ ds.head? = some '0' then none
  else
    match parseFrac l2 with
    | none => none
    | some (fr, l3) =>
      match parseExpPart l3 with
      | none => none
      | some (ex, l4) => some (p.1 ++ ds ++ fr ++ ex, l4)

mutual

/-- Fuel-indexed recursive-descent parser for one JSON value. -/
def parseValue : Nat → List Char → Option (Json × List Char)
  | 0, _ => none
  | fuel + 1, l =>
    match skipWs l with
    | [] => none
    | c :: r =>
      if c = 'n' then
        match r with
        | 'u' :: 'l' :: 'l' :: rest => some (.null, rest)
        | _ => none
      else if c = 't' then
        match r with
        | 'r' :: 'u' :: 'e' :: rest => some (.bool true, rest)
        | _ => none
      else if c = 'f' then
        match r with
        | 'a' :: 'l' :: 's' :: 'e' :: rest => some (.bool false, rest)
        | _ => none
      else if c = '"' then
        match parseStringBody r with
        | some (s, rest) => some (.str s, rest)
        | none => none
      else if c = '[' then
        match skipWs r with
        | ']' :: r2 => some (.arr [], r2)
        | l2 =>
          match parseElems fuel l2 with
          | some (vs, rest) => some (.arr vs, rest)
          | none => none
      else if c = lbrace then
        match skipWs r with
        | [] => none
        | c2 :: r2 =>
          if c2 = rbrace then some (.obj [], r2)
          else
            match parseMembers fuel (c2 :: r2) with
            | some (ms, rest) => some (.obj ms, rest)
            | none => none
      else
        match parseNum (c :: r) with
        | some (tok, rest) => some (.num tok, rest)
        | none => none

/-- Comma-separated JSON array elements up to the closing bracket. -/
def parseElems : Nat → List Char → Option (List Json × List Char)
  | 0, _ => none
  | fuel + 1, l =>
    match parseValue fuel l with
    | none => none
    | some (v, rest) =>
      match skipWs rest with
      | ',' :: r2 =>
        match parseElems fuel r2 with
        | some (vs, rest2) => some (v :: vs, rest2)
        | none => none
      | ']' :: r2 => some ([v], r2)
      | _ => none

/-- Comma-separated JSON object members up to the closing brace. -/
def parseMembers : Nat → List Char → Option (List (List Char × Json) × List Char)
  | 0, _ => none
  | fuel + 1, l =>
    match skipWs l with
    | '"' :: r =>
      match parseStringBody r with
      | none => none
      | some (key, rest) =>
        match skipWs rest with
        | ':' :: r2 =>
          match parseValue fuel r2 with
          | none => none
          | some (v, rest2) =>
            match skipWs rest2 with
            | [] => none
            | c3 :: r3 =>
              if c3 = ',' then
                match parseMembers fuel r3 with
                | some (ms, rest3) => some ((key, v) :: ms, rest3)
                | none => none
              else if c3 = rbrace then some ([(key, v)], r3)
              else none
        | _ => none
    | _ => none

end

/-- `JSON.parse(text)`: parse one value and require only whitespace to
remain; `none` models a thrown `SyntaxError`. -/
def jsonParse (l : List Char) : Option Json :=
  match parseValue (l.length + 2) l with
  | some (v, rest) => if (skipWs rest).isEmpty then some v else none
  | none => none

/-- `buffer.split("\n")` (part_001 line 230): the segments of a character
list split at every newline; always nonempty, and the last element is the
trailing segment after the final newline. -/
def splitNl : List Char → List (List Char)
  | [] => [[]]
  | c :: r => if c = '\n' then [] :: splitNl r else (splitNl r).modifyHead (c :: ·)

/-- The significant-line marker `"data: "`. -/
def dataMark : List Char := "data: ".toList

/-- Processing of one complete line (part_001 lines 235-243):
`line.startsWith("data: ")` selects the line, `JSON.parse(line.slice(6))`
parses the remainder, and a parse failure drops the frame (`none`). -/
def parseLine (line : List Char) : Option Json :=
  if line.take 6 = dataMark then jsonParse (line.drop 6) else none

/-- UTF-8 continuation byte test. -/
def isCont (b : Nat) : Bool := 128 ≤ b && b < 192

/-- The UTF-8 encoding of one character (1-4 bytes). -/
def utf8EncodeChar (ch : Char) : List Nat :=
  let n := ch.toNat
  if n < 128 then [n]
  else if n < 2048 then [192 + n / 64, 128 + n % 64]
  else if n < 65536 then [224 + n / 4096, 128 + (n / 64) % 64, 128 + n % 64]
  else [240 + n / 262144, 128 + (n / 4096) % 64, 128 + (n / 64) % 64, 128 + n % 64]

/-- The UTF-8 encoding of a character list. -/
def utf8Encode (t : List Char) : List Nat := (t.map utf8EncodeChar).flatten

/-- U+FFFD, emitted by `TextDecoder` for invalid input. -/
def replacementChar : Char := Char.ofNat 65533

/-- One byte of incremental UTF-8 decoding, as `TextDecoder('utf-8')`
performs it: `pending` holds the bytes of the codepoint under
construction (a leader and up to two continuations).  Returns the
characters emitted on this byte and the new pending bytes.  Invalid input
emits U+FFFD; on malformed input the resynchronisation point may differ
from the WHATWG decoder (the offending byte is consumed rather than
reprocessed) — malformed sequences are outside every claim, which all
quantify over well-formed byte streams. -/
def utf8Step (pending : List Nat) (b : Nat) : List Char × List Nat :=
  match pending with
  | [] =>
    if b < 128 then ([Char.ofNat b], [])
    else if b < 194 then ([replacementChar], [])    -- stray continuation, or overlong leader xC0/xC1
    else if b < 245 then ([], [b])                  -- plausible leader: await continuations
    else ([replacementChar], [])
  | [b0] =>
    if isCont b then
      if b0 < 224 then ([Char.ofNat ((b0 - 192) * 64 + (b - 128))], [])
      else ([], [b0, b])
    else ([replacementChar], [])
  | [b0, b1] =>
    if isCont b then
      if b0 < 240 then
        let n := (b0 - 224) * 4096 + (b1 - 128) * 64 + (b - 128)
        if n < 2048 ∨ (55296 ≤ n ∧ n < 57344) then ([replacementChar], [])
        else ([Char.ofNat n], [])
      else ([], [b0, b1, b])
    else ([replacementChar], [])
  | [b0, b1, b2] =>
    if isCont b then
      let n := (b0 - 240) * 262144 + (b1 - 128) * 4096 + (b2 - 128) * 64 + (b - 128)
      if n < 65536 ∨ 1114112 ≤ n then ([replacementChar], [])
      else ([Char.ofNat n], [])
    else ([replacementChar], [])
  | _ => ([replacementChar], [])   -- unreachable: pending never exceeds three bytes

/-- Run the byte-level decoder over a byte list from a given state
(characters emitted so far, pending bytes). -/
def utf8DecodeFold (st : List Char × List Nat) (l : List Nat) : List Char × List Nat :=
  l.foldl (fun s b => ((s.1 ++ (utf8Step s.2 b).1 : List Char), (utf8Step s.2 b).2)) st

/-- The core of `TextDecoder('utf-8').decode(..., {stream: true})`:
decode as many complete codepoints as the input allows, returning the
decoded characters and the trailing bytes of an incomplete codepoint, to
be carried over to the next chunk. -/
def utf8DecodeCore (l : List Nat) : List Char × List Nat := utf8DecodeFold ([], []) l

/-- The running state of the `streamChat` read loop: the decoder's
carried-over bytes, the text `buffer`, and the events yielded so far. -/
structure StreamState where
  pend : List Nat
  buf : List Char
  evs : List Json

/-- One iteration of the `while (true)` read loop (part_001 lines
224-247) on a received chunk: incremental decode, append to the buffer,
split on newlines keeping the last segment as the new buffer
(`lines.pop() || ""`), and yield the parses of the complete
`"data: "`-lines, in order. -/
def chunkStep (s : StreamState) (chunk : List Nat) : StreamState :=
  let d := utf8DecodeCore (s.pend ++ chunk)
  let lines := splitNl (s.buf ++ d.1)
  { pend := d.2
    buf := lines.getLastD []
    evs := s.evs ++ lines.dropLast.filterMap parseLine }

/-- The full sequence of events yielded by `streamChat` when the response
body arrives as the given chunks: fold the read loop over the chunks;
when `done`, the loop exits without flushing the buffer or the decoder. -/
def streamChat (chunks : List (List Nat)) : List Json :=
  (chunks.foldl chunkStep ⟨[], [], []⟩).evs

/-! ## §4 Chat transcript: `handleSend` (chat-interface.tsx, lines 47-106)

`handleSend` appends the user entry and an empty assistant placeholder,
then folds over the events of `streamChat`: a `sources` event stores the
source list; a `content` event extends the running `fullContent` and
*replaces* the last transcript entry (`updated[updated.length - 1] = ...`)
with the running total and the current sources; an `error` event replaces
the last entry with an error text; any other event type does nothing. -/

/-- Transcript entry roles. -/
inductive ChatRole where
  | user
  | assistant
deriving DecidableEq

/-- One source citation (`{section, fiscal_year}`). -/
structure ChatSource where
  sectionName : List Char
  fiscalYear : List Char
deriving DecidableEq

/-- One transcript entry; `sources` is `none` when the object literal
carried no `sources` field. -/
structure ChatEntry where
  role : ChatRole
  content : List Char
  sources : Option (List ChatSource)
deriving DecidableEq

/-- A typed event of the chat stream, as dispatched on `event.type`. -/
inductive ChatEvt where
  | sources (s : List ChatSource)
  | content (s : List Char)
  | errorEvt (msg : List Char)
  | otherEvt (t : List Char)
deriving DecidableEq

/-- `updated[updated.length - 1] = v` on a nonempty array. -/
def replaceLast {α : Type} (l : List α) (v : α) : List α := l.dropLast ++ [v]

/-- The `for await (const event of streamChat(...))` body of `handleSend`
(chat-interface.tsx lines 66-95), folded over the event list with the
accumulated `fullContent` and `sources` locals. -/
def chatFold : List ChatEvt → List ChatEntry → List Char → List ChatSource → List ChatEntry
  | [], msgs, _, _ => msgs
  | e :: es, msgs, full, srcs =>
    match e with
    | .sources s => chatFold es msgs full s
    | .content s =>
      chatFold es (replaceLast msgs ⟨.assistant, full ++ s, some srcs⟩) (full ++ s) srcs
    | .errorEvt m =>
      chatFold es (replaceLast msgs ⟨.assistant, "Error: ".toList ++ m, none⟩) full srcs
    | .otherEvt _ => chatFold es msgs full srcs

/-- `handleSend(message)` for one turn, as a function of the previous
transcript and the events received: append the user entry and the empty
assistant placeholder (lines 50-57), then process the stream events. -/
def handleSend (prev : List ChatEntry) (userText : List Char) (events : List ChatEvt) :
    List ChatEntry :=
  chatFold events (prev ++ [⟨.user, userText, none⟩, ⟨.assistant, [], none⟩]) [] []

/-! ## §5 Supporting lemmas -/

/-- Exhausting the loop on timeouts: from iteration `attempt` with
`attempt + fuel = retries + 1` and every attempt aborting, the loop
performs the remaining `fuel` attempts and throws `timeoutError`. -/
theorem fetchLoop_allTimeout {α : Type} (atts : Nat → AttemptResult α) (retries : Nat)
    (h : ∀ k, ∃ m, atts k = .err abortErrorName m) :
    ∀ (fuel attempt : Nat), attempt + fuel = retries + 1 → 1 ≤ fuel →
      fetchLoop atts retries fuel attempt = (.error timeoutError, retries + 1) := by
  intro fuel
  induction fuel with
  | zero => omega
  | succ f ih =>
    intro attempt hsum _
    obtain ⟨m, hm⟩ := h attempt
    simp only [fetchLoop, hm]
    rw [if_pos trivial]
    by_cases hlt : attempt < retries
    · rw [if_pos hlt]
      exact ih (attempt + 1) (by omega) (by omega)
    · rw [if_neg hlt]
      have : attempt = retries := by omega
      simp [this]

/-- Unrolling the poll loop across `d` consecutive `"processing"`
responses: the loop issues those `d` status requests and continues at
index `k + d`; its own-invocation rejection slot is `none` as soon as one
unrolled step succeeded. -/
theorem pollStatus_processing_unroll (st : Nat → Except (List Char) IndexStatus) :
    ∀ (d k fuel : Nat), (∀ j, k ≤ j → j < k + d → isProcessingResp (st j)) →
      pollStatus st none k (d + fuel) =
        (((List.range' k d).map SessionEv.statusReq) ++ (pollStatus st none (k + d) fuel).1,
         if d = 0 then (pollStatus st none (k + d) fuel).2 else none) := by
  intro d
  induction d with
  | zero =>
    intro k fuel _
    simp [List.range']
  | succ d ih =>
    intro k fuel h
    obtain ⟨p, m, hm⟩ := h k (le_refl k) (by omega)
    have hstep : d + 1 + fuel = (d + fuel) + 1 := by omega
    rw [hstep]
    simp only [pollStatus, hm, cancelledBy]
    rw [if_pos trivial]
    have harith : k + (d + 1) = k + 1 + d := by omega
    have := ih (k + 1) fuel (by intro j h1 h2; exact h j (by omega) (by omega))
    rw [harith, this]
    simp [List.range'_succ]

/-- Folding only `content` events over a transcript whose last entry is
`e`: nothing but the last entry changes, and it accumulates the
concatenation of the fragments. -/
theorem chatFold_content_only (frs : List (List Char)) :
    ∀ (X : List ChatEntry) (e : ChatEntry) (full : List Char) (srcs : List ChatSource),
      chatFold (frs.map .content) (X ++ [e]) full srcs =
        X ++ [if frs.isEmpty then e else ⟨.assistant, full ++ frs.flatten, some srcs⟩] := by
  induction frs with
  | nil => intro X e full srcs; simp [chatFold]
  | cons f frs ih =>
    intro X e full srcs
    simp only [List.map_cons, chatFold, replaceLast, List.dropLast_concat]
    rw [ih]
    by_cases h : frs.isEmpty
    · have : frs = [] := List.isEmpty_iff.mp h
      subst this
      simp
    · simp [h, List.append_assoc]

/-- `getLastD` of a nonempty list does not depend on the default. -/
theorem getLastD_irrel {α : Type} : ∀ (S : List α), S ≠ [] → ∀ (d d' : α),
    S.getLastD d = S.getLastD d'
  | [], h, _, _ => absurd rfl h
  | [_], _, _, _ => rfl
  | a :: b :: S, _, d, d' => by
    simp only [List.getLastD_cons]

/-- `getLastD` of an append with nonempty right part. -/
theorem getLastD_append_right {α : Type} (X : List α) : ∀ (Y : List α) (d : α), Y ≠ [] →
    (X ++ Y).getLastD d = Y.getLastD d := by
  induction X with
  | nil => intro Y d _; rfl
  | cons a X ih =>
    intro Y d h
    rw [List.cons_append, List.getLastD_cons, ih Y a h]
    exact getLastD_irrel Y h a d

/-- Unfolding `splitNl` at a newline. -/
theorem splitNl_cons_nl (r : List Char) : splitNl ('\n' :: r) = [] :: splitNl r := by
  simp [splitNl]

/-- Unfolding `splitNl` at a non-newline character. -/
theorem splitNl_cons_other (c : Char) (r : List Char) (h : c ≠ '\n') :
    splitNl (c :: r) = (splitNl r).modifyHead (c :: ·) := by
  simp [splitNl, h]

/-- `splitNl` always returns at least one (possibly empty) segment. -/
theorem splitNl_ne_nil : ∀ (l : List Char), splitNl l ≠ [] := by
  intro l
  induction l with
  | nil => simp [splitNl]
  | cons c r ih =>
    by_cases h : c = '\n'
    · subst h; rw [splitNl_cons_nl]; simp
    · rw [splitNl_cons_other c r h]
      cases hS : splitNl r with
      | nil => exact absurd hS ih
      | cons a l => simp

/-- The splitting of an append: the complete segments of `a` followed by
the splitting of `a`'s trailing segment prepended to `b`.  This is the
algebraic heart of the buffer invariant of the read loop. -/
theorem splitNl_append : ∀ (a b : List Char),
    splitNl (a ++ b) = (splitNl a).dropLast ++ splitNl ((splitNl a).getLastD [] ++ b) := by
  intro a
  induction a with
  | nil => intro b; simp [splitNl]
  | cons c a' ih =>
    intro b
    by_cases h : c = '\n'
    · subst h
      rw [List.cons_append, splitNl_cons_nl, splitNl_cons_nl]
      have hne := splitNl_ne_nil a'
      rw [ih b, List.dropLast_cons_of_ne_nil hne, List.getLastD_cons]
      rw [getLastD_irrel (splitNl a') hne [] ([] : List Char)]
      simp
    · rw [List.cons_append, splitNl_cons_other c (a' ++ b) h, splitNl_cons_other c a' h]
      rcases hS : splitNl a' with _ | ⟨l, ls⟩
      · exact absurd hS (splitNl_ne_nil a')
      · cases ls with
        | nil =>
          rw [ih b, hS]
          simp only [List.modifyHead_cons, List.dropLast_single, List.nil_append,
            List.getLastD_cons, List.getLastD_nil]
          rw [List.cons_append, splitNl_cons_other c (l ++ b) h]
        | cons l2 ls' =>
          rw [ih b, hS]
          have hne2 : l2 :: ls' ≠ ([] : List (List Char)) := by simp
          simp only [List.modifyHead_cons, List.dropLast_cons_of_ne_nil hne2,
            List.getLastD_cons, List.cons_append, List.modifyHead]

/-- A newline-free list splits into itself only. -/
theorem noNl_splitNl : ∀ (l : List Char), (∀ x ∈ l, x ≠ '\n') → splitNl l = [l] := by
  intro l
  induction l with
  | nil => intro _; rfl
  | cons c r ih =>
    intro h
    have hc : c ≠ '\n' := h c (by simp)
    rw [splitNl_cons_other c r hc, ih (fun x hx => h x (by simp [hx]))]
    rfl

/-- The trailing segment of a split never contains a newline: the read
loop's buffer invariant. -/
theorem splitNl_getLastD_noNl : ∀ (l : List Char), ∀ x ∈ (splitNl l).getLastD [], x ≠ '\n' := by
  intro l
  induction l with
  | nil => intro x hx; simp [splitNl] at hx
  | cons c r ih =>
    intro x hx
    by_cases h : c = '\n'
    · subst h
      rw [splitNl_cons_nl, List.getLastD_cons,
        getLastD_irrel (splitNl r) (splitNl_ne_nil r) [] ([] : List Char)] at hx
      exact ih x hx
    · rw [splitNl_cons_other c r h] at hx
      rcases hS : splitNl r with _ | ⟨l1, ls⟩
      · exact absurd hS (splitNl_ne_nil r)
      · rw [hS] at hx
        cases ls with
        | nil =>
          simp only [List.modifyHead_cons, List.getLastD_cons, List.getLastD_nil] at hx
          rcases List.mem_cons.mp hx with he | hx
          · rw [he]; exact h
          · apply ih
            rw [hS]
            simpa using hx
        | cons l2 ls' =>
          simp only [List.modifyHead_cons, List.getLastD_cons] at hx
          apply ih
          rw [hS]
          simp only [List.getLastD_cons]
          exact hx

/-- A line made of newline-free `a` then a newline: the split peels `a`. -/
theorem splitNl_line_append : ∀ (a b : List Char), (∀ x ∈ a, x ≠ '\n') →
    splitNl (a ++ '\n' :: b) = a :: splitNl b := by
  intro a
  induction a with
  | nil => intro b _; rw [List.nil_append, splitNl_cons_nl]
  | cons c a' ih =>
    intro b h
    have hc : c ≠ '\n' := h c (by simp)
    rw [List.cons_append, splitNl_cons_other c _ hc,
      ih b (fun x hx => h x (by simp [hx]))]
    rfl

/-- Every character's codepoint is below x110000. -/
theorem char_toNat_lt (c : Char) : c.toNat < 1114112 := by
  rcases c.valid with h | ⟨_, h2⟩ <;> simp [Char.toNat] <;> omega

/-- No character is a surrogate codepoint. -/
theorem char_not_surrogate (c : Char) : c.toNat < 55296 ∨ 57343 < c.toNat := by
  rcases c.valid with h | ⟨h1, _⟩
  · left; exact h
  · right; exact h1

theorem utf8DecodeFold_nil (st : List Char × List Nat) : utf8DecodeFold st [] = st := rfl

theorem utf8DecodeFold_cons (st : List Char × List Nat) (b : Nat) (l : List Nat) :
    utf8DecodeFold st (b :: l) =
      utf8DecodeFold (st.1 ++ (utf8Step st.2 b).1, (utf8Step st.2 b).2) l := rfl

theorem utf8DecodeFold_append (st : List Char × List Nat) (x y : List Nat) :
    utf8DecodeFold st (x ++ y) = utf8DecodeFold (utf8DecodeFold st x) y := by
  simp only [utf8DecodeFold]
  exact List.foldl_append _ _ _ _

/-- The characters already emitted do not influence decoding: the fold
factors through the empty accumulator. -/
theorem utf8DecodeFold_acc : ∀ (l : List Nat) (acc : List Char) (p : List Nat),
    utf8DecodeFold (acc, p) l =
      (acc ++ (utf8DecodeFold ([], p) l).1, (utf8DecodeFold ([], p) l).2) := by
  intro l
  induction l with
  | nil => intro acc p; simp [utf8DecodeFold_nil]
  | cons b l ih =>
    intro acc p
    rw [utf8DecodeFold_cons, utf8DecodeFold_cons]
    simp only [List.nil_append]
    rw [ih (acc ++ (utf8Step p b).1) (utf8Step p b).2, ih ((utf8Step p b).1) (utf8Step p b).2]
    simp

theorem utf8Step_nil_ascii (b : Nat) (h : b < 128) :
    utf8Step [] b = ([Char.ofNat b], []) := by
  simp [utf8Step, h]

theorem utf8Step_nil_leader (b : Nat) (h1 : 194 ≤ b) (h2 : b < 245) :
    utf8Step [] b = ([], [b]) := by
  have e1 : ¬ b < 128 := by omega
  have e2 : ¬ b < 194 := by omega
  simp [utf8Step, e1, e2, h2]

theorem utf8Step_one_complete (b0 b : Nat) (hc : isCont b = true) (h : b0 < 224) :
    utf8Step [b0] b = ([Char.ofNat ((b0 - 192) * 64 + (b - 128))], []) := by
  simp [utf8Step, hc, h]

theorem utf8Step_one_hold (b0 b : Nat) (hc : isCont b = true) (h : ¬ b0 < 224) :
    utf8Step [b0] b = ([], [b0, b]) := by
  simp [utf8Step, hc, h]

theorem utf8Step_two_complete (b0 b1 b : Nat) (hc : isCont b = true) (h : b0 < 240)
    (hv : ¬((b0 - 224) * 4096 + (b1 - 128) * 64 + (b - 128) < 2048 ∨
      (55296 ≤ (b0 - 224) * 4096 + (b1 - 128) * 64 + (b - 128) ∧
       (b0 - 224) * 4096 + (b1 - 128) * 64 + (b - 128) < 57344))) :
    utf8Step [b0, b1] b =
      ([Char.ofNat ((b0 - 224) * 4096 + (b1 - 128) * 64 + (b - 128))], []) := by
  simp [utf8Step, hc, h, hv]

theorem utf8Step_two_hold (b0 b1 b : Nat) (hc : isCont b = true) (h : ¬ b0 < 240) :
    utf8Step [b0, b1] b = ([], [b0, b1, b]) := by
  simp [utf8Step, hc, h]

theorem utf8Step_three_complete (b0 b1 b2 b : Nat) (hc : isCont b = true)
    (hv : ¬((b0 - 240) * 262144 + (b1 - 128) * 4096 + (b2 - 128) * 64 + (b - 128) < 65536 ∨
      1114112 ≤ (b0 - 240) * 262144 + (b1 - 128) * 4096 + (b2 - 128) * 64 + (b - 128))) :
    utf8Step [b0, b1, b2] b =
      ([Char.ofNat ((b0 - 240) * 262144 + (b1 - 128) * 4096 + (b2 - 128) * 64 + (b - 128))],
       []) := by
  simp [utf8Step, hc, hv]

theorem isCont_mod (n : Nat) : isCont (128 + n % 64) = true := by
  simp [isCont]; omega

/-- Decoding the encoding of one character from a clean state emits
exactly that character and returns to the clean state. -/
theorem utf8DecodeFold_encodeChar (c : Char) (acc : List Char) :
    utf8DecodeFold (acc, []) (utf8EncodeChar c) = (acc ++ [c], []) := by
  have hlt := char_toNat_lt c
  have hsur := char_not_surrogate c
  by_cases h1 : c.toNat < 128
  · rw [utf8EncodeChar, if_pos h1, utf8DecodeFold_cons]
    simp only [utf8Step_nil_ascii _ h1]
    rw [utf8DecodeFold_nil, Char.ofNat_toNat]
  · by_cases h2 : c.toNat < 2048
    · rw [utf8EncodeChar, if_neg h1, if_pos h2]
      rw [utf8DecodeFold_cons]
      simp only [utf8Step_nil_leader (192 + c.toNat / 64) (by omega) (by omega)]
      rw [utf8DecodeFold_cons]
      simp only [utf8Step_one_complete (192 + c.toNat / 64) (128 + c.toNat % 64)
        (isCont_mod _) (by omega)]
      rw [utf8DecodeFold_nil]
      have harith : (192 + c.toNat / 64 - 192) * 64 + (128 + c.toNat % 64 - 128) = c.toNat := by
        omega
      rw [harith, Char.ofNat_toNat]
      simp
    · by_cases h3 : c.toNat < 65536
      · rw [utf8EncodeChar, if_neg h1, if_neg h2, if_pos h3]
        rw [utf8DecodeFold_cons]
        simp only [utf8Step_nil_leader (224 + c.toNat / 4096) (by omega) (by omega)]
        rw [utf8DecodeFold_cons]
        simp only [utf8Step_one_hold (224 + c.toNat / 4096) (128 + c.toNat / 64 % 64)
          (isCont_mod _) (by omega)]
        rw [utf8DecodeFold_cons]
        simp only [utf8Step_two_complete (224 + c.toNat / 4096) (128 + c.toNat / 64 % 64)
          (128 + c.toNat % 64) (isCont_mod _) (by omega) (by omega)]
        rw [utf8DecodeFold_nil]
        have harith : (224 + c.toNat / 4096 - 224) * 4096 +
            (128 + c.toNat / 64 % 64 - 128) * 64 + (128 + c.toNat % 64 - 128) = c.toNat := by
          omega
        rw [harith, Char.ofNat_toNat]
        simp
      · rw [utf8EncodeChar, if_neg h1, if_neg h2, if_neg h3]
        rw [utf8DecodeFold_cons]
        simp only [utf8Step_nil_leader (240 + c.toNat / 262144) (by omega) (by omega)]
        rw [utf8DecodeFold_cons]
        simp only [utf8Step_one_hold (240 + c.toNat / 262144) (128 + c.toNat / 4096 % 64)
          (isCont_mod _) (by omega)]
        rw [utf8DecodeFold_cons]
        simp only [utf8Step_two_hold (240 + c.toNat / 262144) (128 + c.toNat / 4096 % 64)
          (128 + c.toNat / 64 % 64) (isCont_mod _) (by omega)]
        rw [utf8DecodeFold_cons]
        simp only [utf8Step_three_complete (240 + c.toNat / 262144) (128 + c.toNat / 4096 % 64)
          (128 + c.toNat / 64 % 64) (128 + c.toNat % 64) (isCont_mod _) (by omega)]
        rw [utf8DecodeFold_nil]
        have harith : (240 + c.toNat / 262144 - 240) * 262144 +
            (128 + c.toNat / 4096 % 64 - 128) * 4096 +
            (128 + c.toNat / 64 % 64 - 128) * 64 + (128 + c.toNat % 64 - 128) = c.toNat := by
          omega
        rw [harith, Char.ofNat_toNat]
        simp

theorem utf8Encode_nil : utf8Encode [] = [] := rfl

theorem utf8Encode_cons (c : Char) (t : List Char) :
    utf8Encode (c :: t) = utf8EncodeChar c ++ utf8Encode t := by
  simp [utf8Encode]

theorem utf8Encode_append (a b : List Char) :
    utf8Encode (a ++ b) = utf8Encode a ++ utf8Encode b := by
  simp [utf8Encode]

/-- Decoding a strict prefix of one character's encoding emits nothing
and keeps the bytes pending. -/
theorem utf8DecodeFold_encodeChar_partial (c : Char) (acc : List Char) :
    ∀ (B r : List Nat), B ++ r = utf8EncodeChar c →
      B.length < (utf8EncodeChar c).length →
      utf8DecodeFold (acc, []) B = (acc, B) := by
  have hlt := char_toNat_lt c
  intro B r h hlen
  by_cases h1 : c.toNat < 128
  · rw [utf8EncodeChar, if_pos h1] at h hlen
    simp only [List.length_cons, List.length_nil] at hlen
    have : B = [] := List.eq_nil_of_length_eq_zero (by omega)
    subst this
    rfl
  · by_cases h2 : c.toNat < 2048
    · rw [utf8EncodeChar, if_neg h1, if_pos h2] at h hlen
      simp only [List.length_cons, List.length_nil] at hlen
      match B, hlen with
      | [], _ => rfl
      | [b0], _ =>
        simp only [List.cons_append, List.nil_append, List.cons.injEq] at h
        obtain ⟨rfl, -⟩ := h
        rw [utf8DecodeFold_cons]
        simp only [utf8Step_nil_leader (192 + c.toNat / 64) (by omega) (by omega)]
        simp [utf8DecodeFold_nil]
    · by_cases h3 : c.toNat < 65536
      · rw [utf8EncodeChar, if_neg h1, if_neg h2, if_pos h3] at h hlen
        simp only [List.length_cons, List.length_nil] at hlen
        match B, hlen with
        | [], _ => rfl
        | [b0], _ =>
          simp only [List.cons_append, List.nil_append, List.cons.injEq] at h
          obtain ⟨rfl, -⟩ := h
          rw [utf8DecodeFold_cons]
          simp only [utf8Step_nil_leader (224 + c.toNat / 4096) (by omega) (by omega)]
          simp [utf8DecodeFold_nil]
        | [b0, b1], _ =>
          simp only [List.cons_append, List.nil_append, List.cons.injEq] at h
          obtain ⟨rfl, rfl, -⟩ := h
          rw [utf8DecodeFold_cons]
          simp only [utf8Step_nil_leader (224 + c.toNat / 4096) (by omega) (by omega)]
          rw [utf8DecodeFold_cons]
          simp only [List.nil_append, utf8Step_one_hold (224 + c.toNat / 4096)
            (128 + c.toNat / 64 % 64) (isCont_mod _) (by omega)]
          simp [utf8DecodeFold_nil]
      · rw [utf8EncodeChar, if_neg h1, if_neg h2, if_neg h3] at h hlen
        simp only [List.length_cons, List.length_nil] at hlen
        match B, hlen with
        | [], _ => rfl
        | [b0], _ =>
          simp only [List.cons_append, List.nil_append, List.cons.injEq] at h
          obtain ⟨rfl, -⟩ := h
          rw [utf8DecodeFold_cons]
          simp only [utf8Step_nil_leader (240 + c.toNat / 262144) (by omega) (by omega)]
          simp [utf8DecodeFold_nil]
        | [b0, b1], _ =>
          simp only [List.cons_append, List.nil_append, List.cons.injEq] at h
          obtain ⟨rfl, rfl, -⟩ := h
          rw [utf8DecodeFold_cons]
          simp only [utf8Step_nil_leader (240 + c.toNat / 262144) (by omega) (by omega)]
          rw [utf8DecodeFold_cons]
          simp only [List.nil_append, utf8Step_one_hold (240 + c.toNat / 262144)
            (128 + c.toNat / 4096 % 64) (isCont_mod _) (by omega)]
          simp [utf8DecodeFold_nil]
        | [b0, b1, b2], _ =>
          simp only [List.cons_append, List.nil_append, List.cons.injEq] at h
          obtain ⟨rfl, rfl, rfl, -⟩ := h
          rw [utf8DecodeFold_cons]
          simp only [utf8Step_nil_leader (240 + c.toNat / 262144) (by omega) (by omega)]
          rw [utf8DecodeFold_cons]
          simp only [List.nil_append, utf8Step_one_hold (240 + c.toNat / 262144)
            (128 + c.toNat / 4096 % 64) (isCont_mod _) (by omega)]
          rw [utf8DecodeFold_cons]
          simp only [utf8Step_two_hold (240 + c.toNat / 262144) (128 + c.toNat / 4096 % 64)
            (128 + c.toNat / 64 % 64) (isCont_mod _) (by omega)]
          simp [utf8DecodeFold_nil]

/-- Decoding any byte-prefix of a well-formed UTF-8 stream: the prefix
splits into fully-encoded characters plus a strict prefix of the next
character's encoding, which stays pending. -/
theorem decode_of_prefix : ∀ (t : List Char) (B rest : List Nat), B ++ rest = utf8Encode t →
    ∃ t1 t2 pre, t = t1 ++ t2 ∧ B = utf8Encode t1 ++ pre ∧
      utf8DecodeCore B = (t1, pre) ∧ utf8DecodeCore pre = ([], pre) ∧
      ((t2 = [] ∧ pre = []) ∨
        ∃ c t2', t2 = c :: t2' ∧ pre.length < (utf8EncodeChar c).length) := by
  intro t
  induction t with
  | nil =>
    intro B rest h
    rw [utf8Encode_nil] at h
    obtain ⟨rfl, rfl⟩ := List.append_eq_nil.mp h
    exact ⟨[], [], [], rfl, rfl, rfl, rfl, Or.inl ⟨rfl, rfl⟩⟩
  | cons c t' ih =>
    intro B rest h
    rw [utf8Encode_cons] at h
    by_cases hB : (utf8EncodeChar c).length ≤ B.length
    · -- B contains the whole first character
      have htake : B.take (utf8EncodeChar c).length = utf8EncodeChar c := by
        have h1 : (B ++ rest).take (utf8EncodeChar c).length
            = B.take (utf8EncodeChar c).length := List.take_append_of_le_length hB
        rw [h, List.take_left] at h1
        exact h1.symm
      have hsplit : B = utf8EncodeChar c ++ B.drop (utf8EncodeChar c).length := by
        conv_lhs => rw [← List.take_append_drop (utf8EncodeChar c).length B]
        rw [htake]
      have hrest : B.drop (utf8EncodeChar c).length ++ rest = utf8Encode t' := by
        have := h
        conv_lhs at this => rw [hsplit]
        rw [List.append_assoc] at this
        exact List.append_cancel_left this
      obtain ⟨t1', t2, pre, ht', hB', hdec, hpre, hdisj⟩ := ih _ rest hrest
      refine ⟨c :: t1', t2, pre, by rw [ht', List.cons_append], ?_, ?_, hpre, hdisj⟩
      · rw [hsplit, hB', utf8Encode_cons, List.append_assoc]
      · rw [hsplit]
        show utf8DecodeFold ([], []) _ = _
        rw [utf8DecodeFold_append, utf8DecodeFold_encodeChar]
        have hfold : utf8DecodeFold ([], []) (B.drop (utf8EncodeChar c).length) = (t1', pre) :=
          hdec
        rw [utf8DecodeFold_acc, hfold]
        simp
    · -- B is a strict prefix of the first character's encoding
      push_neg at hB
      have htake : B = (utf8EncodeChar c).take B.length := by
        have h1 : (B ++ rest).take B.length = B.take B.length :=
          List.take_append_of_le_length (le_refl _)
        rw [h, List.take_append_of_le_length (by omega), List.take_length] at h1
        exact h1.symm
      have hBpre : B ++ (utf8EncodeChar c).drop B.length = utf8EncodeChar c := by
        have h2 := List.take_append_drop B.length (utf8EncodeChar c)
        rw [← htake] at h2
        exact h2
      have hdecB : utf8DecodeFold (([] : List Char), []) B = ([], B) :=
        utf8DecodeFold_encodeChar_partial c [] B _ hBpre hB
      exact ⟨[], c :: t', B, rfl, by simp [utf8Encode_nil], hdecB, hdecB,
        Or.inr ⟨c, t', rfl, hB⟩⟩

/-- The read loop, run from a clean decoder state whose pending bytes
plus remaining chunks form the encoding of a text `t2`, ends with an
empty decoder, the trailing segment of `t2` as buffer, and exactly the
events of the complete lines of `t2` appended — independent of the
chunking. -/
theorem streamChat_characterize : ∀ (chunks : List (List Nat)) (pre : List Nat) (buf : List Char)
    (evs : List Json) (t2 : List Char),
    utf8DecodeCore pre = ([], pre) →
    pre ++ chunks.flatten = utf8Encode t2 →
    (∀ x ∈ buf, x ≠ '\n') →
    chunks.foldl chunkStep ⟨pre, buf, evs⟩ =
      ⟨[], (splitNl (buf ++ t2)).getLastD [],
        evs ++ ((splitNl (buf ++ t2)).dropLast.filterMap parseLine)⟩ := by
  intro chunks
  induction chunks with
  | nil =>
    intro pre buf evs t2 hinc h hbuf
    rw [List.flatten_nil, List.append_nil] at h
    subst h
    obtain ⟨t1, t2', pre', ht2, hB, hdec, hpre, hdisj⟩ :=
      decode_of_prefix t2 (utf8Encode t2) [] (by rw [List.append_nil])
    rw [hinc] at hdec
    obtain ⟨rfl, rfl⟩ : t1 = [] ∧ pre' = utf8Encode t2 := by
      have h1 := congrArg Prod.fst hdec
      have h2 := congrArg Prod.snd hdec
      exact ⟨h1.symm, h2.symm⟩
    rcases hdisj with ⟨ht2', hE⟩ | ⟨c, t2'', hcons, hlen⟩
    · -- t2 = [] and the encoding is empty
      rw [List.nil_append] at ht2
      subst ht2
      subst ht2'
      rw [List.foldl_nil, List.append_nil, noNl_splitNl buf hbuf]
      simp [utf8Encode_nil]
    · -- impossible: the whole encoding would be shorter than its first character
      exfalso
      rw [List.nil_append] at ht2
      subst ht2
      have hEc : utf8Encode t2 = utf8EncodeChar c ++ utf8Encode t2'' := by
        rw [hcons, utf8Encode_cons]
      have hlenE := congrArg List.length hEc
      rw [List.length_append] at hlenE
      omega
  | cons ch chunks ih =>
    intro pre buf evs t2 hinc h hbuf
    rw [List.flatten_cons, ← List.append_assoc] at h
    obtain ⟨t1, t2', pre', ht2, hB, hdec, hpre, hdisj⟩ :=
      decode_of_prefix t2 (pre ++ ch) chunks.flatten h
    rw [List.foldl_cons]
    have hstep : chunkStep ⟨pre, buf, evs⟩ ch =
        ⟨pre', (splitNl (buf ++ t1)).getLastD [],
         evs ++ (splitNl (buf ++ t1)).dropLast.filterMap parseLine⟩ := by
      simp [chunkStep, hdec]
    rw [hstep]
    have hflat : pre' ++ chunks.flatten = utf8Encode t2' := by
      have h1 : (utf8Encode t1 ++ pre') ++ chunks.flatten
          = utf8Encode t1 ++ utf8Encode t2' := by
        rw [← hB, h, ht2, utf8Encode_append]
      rw [List.append_assoc] at h1
      exact List.append_cancel_left h1
    have hbuf' : ∀ x ∈ (splitNl (buf ++ t1)).getLastD [], x ≠ '\n' :=
      splitNl_getLastD_noNl (buf ++ t1)
    rw [ih pre' _ _ t2' hpre hflat hbuf']
    subst ht2
    have hassoc : buf ++ (t1 ++ t2') = (buf ++ t1) ++ t2' := by rw [List.append_assoc]
    rw [hassoc, splitNl_append (buf ++ t1) t2']
    have hne := splitNl_ne_nil ((splitNl (buf ++ t1)).getLastD [] ++ t2')
    rw [List.dropLast_append_of_ne_nil _ hne,
      getLastD_append_right _ _ _ hne, List.filterMap_append]
    simp [List.append_assoc]

/-- `dataMark` contains no newline. -/
theorem dataMark_noNl : ∀ x ∈ dataMark, x ≠ '\n' := by decide

/-- Newline-freeness is preserved by append. -/
theorem noNl_append {a b : List Char} (ha : ∀ x ∈ a, x ≠ '\n') (hb : ∀ x ∈ b, x ≠ '\n') :
    ∀ x ∈ a ++ b, x ≠ '\n' := by
  intro x hx
  rcases List.mem_append.mp hx with h | h
  · exact ha x h
  · exact hb x h

/-- A line consisting of the `"data: "` marker and a payload parses to
the payload's JSON parse. -/
theorem parseLine_dataMark (p : List Char) : parseLine (dataMark ++ p) = jsonParse p := rfl

/-! ## §6 Claims -/

/-- C1: the claim states that once the cancellation handle has run,
neither `onComplete` nor `onError` is ever invoked, including when a
status request already in flight at cancellation time later resolves with
a terminal status.  The code violates this: `pollStatus` checks
`cancelled` only before issuing the request, not after the await, so a
session whose first status request is in flight when the cleanup runs
(cancellation during suspension 1) and which then resolves `"complete"`
still invokes `onComplete` — at a point (two resumed suspensions) at
which the cancelled flag already reads `true`. -/
theorem c1_cancel_inflight_terminal_fires_callback :
    (startIndexing (.ok ("started".toList))
        (fun _ => .ok ⟨"complete".toList, 100, none⟩) (some 1) 2
      = [.statusReq 0, .completeCb]) ∧
    cancelledBy (some 1) 2 = true := by
  constructor
  · decide
  · decide

/-- C2 counterexample: with the start request succeeding with body
`{status: "already_done"}` and the job reporting complete, the session
nevertheless issues a status request (`statusReq 0` occurs), refuting
"zero status GETs for that session" and the direct transition to
`Complete`. -/
theorem c2_counterexample :
    (startIndexing (.ok ("already_done".toList))
        (fun _ => .ok ⟨"complete".toList, 100, none⟩) none 2
      = [.statusReq 0, .completeCb]) ∧
    SessionEv.statusReq 0 ∈
      startIndexing (.ok ("already_done".toList))
        (fun _ => .ok ⟨"complete".toList, 100, none⟩) none 2 := by
  constructor
  · decide
  · decide

/-- C2 (amended): the body of a successful start response is ignored
entirely — the session behaves identically for any body, including
`"already_done"`/`"done"`, and proceeds to polling: for an uncancelled
session the first status request is issued, and `onComplete` is invoked
only once a status response reports `"complete"` (here: one status
request, then `onComplete`). -/
theorem c2_start_response_body_ignored (s1 s2 : List Char)
    (st : Nat → Except (List Char) IndexStatus) (c : Option Nat) (fuel p : Nat)
    (m : Option (List Char)) :
    (startIndexing (.ok s1) st c fuel = startIndexing (.ok s2) st c fuel) ∧
    (st 0 = .ok ⟨"complete".toList, p, m⟩ → 1 ≤ fuel → c = none →
      startIndexing (.ok s1) st c fuel = [.statusReq 0, .completeCb]) := by
  refine ⟨rfl, fun h0 hf hc => ?_⟩
  subst hc
  obtain ⟨f, rfl⟩ : ∃ f, fuel = f + 1 := ⟨fuel - 1, by omega⟩
  simp [startIndexing, pollStatus, h0, cancelledBy]

theorem c2_witness :
    (startIndexing (.ok ("already_done".toList))
        (fun _ => .ok ⟨"complete".toList, 100, none⟩) none 3
      = startIndexing (.ok ("done".toList))
        (fun _ => .ok ⟨"complete".toList, 100, none⟩) none 3) ∧
    startIndexing (.ok ("already_done".toList))
        (fun _ => .ok ⟨"complete".toList, 100, none⟩) none 3
      = [.statusReq 0, .completeCb] :=
  ⟨(c2_start_response_body_ignored ("already_done".toList) ("done".toList)
      (fun _ => .ok ⟨"complete".toList, 100, none⟩) none 3 100 none).1,
   (c2_start_response_body_ignored ("already_done".toList) ("done".toList)
      (fun _ => .ok ⟨"complete".toList, 100, none⟩) none 3 100 none).2 rfl (by omega) rfl⟩

/-- C3 counterexample: when the first status check reports
`"processing"` and the second status check throws (`"boom"`), the session
issues exactly the two status requests and invokes no callback at all —
in particular `onError` is never invoked, refuting "onError is invoked
exactly once ... regardless of whether the failing status check is the
first one or a later one".  (The later invocation runs detached via
`setTimeout`, so its rejection is an unhandled promise rejection outside
the `try`/`catch` of `startIndexing`.) -/
theorem c3_counterexample :
    (startIndexing (.ok ("started".toList))
        (fun j => if j = 0 then .ok ⟨"processing".toList, 10, none⟩
                  else .error ("boom".toList)) none 5
      = [.statusReq 0, .statusReq 1]) ∧
    SessionEv.errorCb ("boom".toList) ∉
      startIndexing (.ok ("started".toList))
        (fun j => if j = 0 then .ok ⟨"processing".toList, 10, none⟩
                  else .error ("boom".toList)) none 5 := by
  constructor
  · decide
  · decide

/-- C3 (amended): in an uncancelled session, when the *first* status
check fails (and the failure message does not match the
`already_indexed` sentinel, which would instead be reclassified as
completion), `onError` is invoked exactly once with the failure message
and no further status request is issued; when a *later* status check —
scheduled after `"processing"` responses — fails, no callback is invoked
at all, and likewise no further status request is issued. -/
theorem c3_status_check_failure (s msg : List Char)
    (st : Nat → Except (List Char) IndexStatus) (fuel k : Nat) :
    (st 0 = .error msg → containsSub msg alreadyIndexedSentinel = false →
      startIndexing (.ok s) st none (fuel + 1) = [.statusReq 0, .errorCb msg]) ∧
    (1 ≤ k → (∀ j, j < k → isProcessingResp (st j)) → st k = .error msg →
      startIndexing (.ok s) st none (k + (fuel + 1)) =
        (List.range (k + 1)).map SessionEv.statusReq) := by
  constructor
  · intro h0 hsent
    simp [startIndexing, pollStatus, h0, cancelledBy, hsent]
  · intro hk hproc hke
    have hu := pollStatus_processing_unroll st k 0 (fuel + 1)
      (by intro j h1 h2; exact hproc j (by omega))
    simp only [Nat.zero_add] at hu
    simp only [startIndexing, hu]
    rw [if_neg (by omega)]
    simp only [pollStatus, cancelledBy, hke]
    rw [if_neg (by simp)]
    rw [List.range_eq_range', List.range'_concat]
    simp

theorem c3_witness :
    (startIndexing (.ok ("started".toList)) (fun _ => .error ("boom".toList)) none 1
      = [.statusReq 0, .errorCb ("boom".toList)]) ∧
    startIndexing (.ok ("started".toList))
        (fun j => if j = 0 then .ok ⟨"processing".toList, 10, none⟩
                  else .error ("boom".toList)) none 3
      = (List.range 2).map SessionEv.statusReq :=
  ⟨(c3_status_check_failure ("started".toList) ("boom".toList)
      (fun _ => .error ("boom".toList)) 0 1).1 rfl (by decide),
   (c3_status_check_failure ("started".toList) ("boom".toList)
      (fun j => if j = 0 then .ok ⟨"processing".toList, 10, none⟩
                else .error ("boom".toList)) 1 1).2 (by omega)
     (by intro j hj
         have : j = 0 := by omega
         subst this
         exact ⟨10, none, rfl⟩) rfl⟩

/-- C4: for every retry budget `N`, if every attempt of `fetchWithRetry`
rejects with an `AbortError` (the per-attempt deadline elapsed before a
response), then exactly `N + 1` fetch attempts occur and the executor
throws the timeout failure.  The retry happens in the same loop iteration
sequence with no delay construct between attempts (the source loop
`continue`s immediately).  With budget 0 this specialises to exactly one
attempt. -/
theorem c4_timeout_budget_exhausted {α : Type} (atts : Nat → AttemptResult α) (N : Nat)
    (h : ∀ k, ∃ m, atts k = .err abortErrorName m) :
    fetchWithRetry atts N = (.error timeoutError, N + 1) :=
  fetchLoop_allTimeout atts N h (N + 1) 0 (by omega) (by omega)

theorem c4_witness :
    (@fetchWithRetry Unit (fun _ => .err abortErrorName []) 2 = (.error timeoutError, 3)) ∧
    (@fetchWithRetry Unit (fun _ => .err abortErrorName []) 0 = (.error timeoutError, 1)) :=
  ⟨c4_timeout_budget_exhausted _ 2 (fun _ => ⟨[], rfl⟩),
   c4_timeout_budget_exhausted _ 0 (fun _ => ⟨[], rfl⟩)⟩

/-- C5: the claim states that a caller-initiated abort (surfacing as an
`AbortError`) is never retried and is distinguishable from a
deadline-timeout failure.  The code violates this (and its own comment
"Don't retry on abort (user cancelled)"): every `AbortError` is treated
as a deadline timeout — here an attempt rejecting with the
caller-abort message is retried once (2 attempts despite budget 1
remaining after the first), and the resulting failure is the generic
timeout error, byte-identical to the pure-timeout outcome, so the caller
cannot distinguish the two.  (Moreover `fetchWithRetry` overrides any
caller-supplied abort signal with its internal controller's.) -/
theorem c5_abort_retried_and_indistinguishable :
    (@fetchWithRetry Unit
        (fun _ => .err abortErrorName ("The user aborted a request.".toList)) 1
      = (.error timeoutError, 2)) ∧
    (@fetchWithRetry Unit
        (fun _ => .err abortErrorName ("The user aborted a request.".toList)) 1).1
      = (@fetchWithRetry Unit (fun _ => .err abortErrorName ("deadline".toList)) 1).1 :=
  ⟨rfl, rfl⟩

/-- C6: for every text `t` and every partition of its UTF-8 encoding
into chunks — split at any byte offset, including mid-codepoint, mid-line
and mid-JSON-token — the event sequence yielded by `streamChat` equals
that of the single-chunk delivery, with events in frame arrival order. -/
theorem c6_chunking_invariance (t : List Char) (chunks : List (List Nat))
    (h : chunks.flatten = utf8Encode t) :
    streamChat chunks = streamChat [utf8Encode t] := by
  have e1 := streamChat_characterize chunks [] [] [] t rfl (by simpa using h) (by simp)
  have e2 := streamChat_characterize [utf8Encode t] [] [] [] t rfl (by simp) (by simp)
  unfold streamChat
  rw [e1, e2]

theorem c6_witness :
    (([[100, 97, 116, 97, 58], [32, 55, 10, 195], [169]] : List (List Nat)).flatten
      = utf8Encode ("data: 7\né".toList)) ∧
    streamChat [[100, 97, 116, 97, 58], [32, 55, 10, 195], [169]]
      = streamChat [utf8Encode ("data: 7\né".toList)] :=
  ⟨by decide, c6_chunking_invariance _ _ (by decide)⟩

/-- C7: a stream of three `"data: "` lines whose middle payload fails
JSON parsing, followed by a trailing line without a terminating newline,
yields exactly the two well-formed events in order: the malformed frame
is dropped without aborting the stream (`jsonParse _ = none` models the
caught `JSON.parse` exception, which never escapes the generator), and
the unterminated trailing line is never emitted as an event. -/
theorem c7_malformed_frame_dropped (p1 p2 p3 trail : List Char) (v1 v3 : Json)
    (h1 : jsonParse p1 = some v1) (h2 : jsonParse p2 = none) (h3 : jsonParse p3 = some v3)
    (n1 : ∀ x ∈ p1, x ≠ '\n') (n2 : ∀ x ∈ p2, x ≠ '\n') (n3 : ∀ x ∈ p3, x ≠ '\n')
    (nt : ∀ x ∈ trail, x ≠ '\n') :
    streamChat [utf8Encode ((dataMark ++ p1) ++ '\n' ::
        ((dataMark ++ p2) ++ '\n' :: ((dataMark ++ p3) ++ '\n' :: trail)))] = [v1, v3] := by
  have e := streamChat_characterize
    [utf8Encode ((dataMark ++ p1) ++ '\n' ::
      ((dataMark ++ p2) ++ '\n' :: ((dataMark ++ p3) ++ '\n' :: trail)))] [] [] []
    ((dataMark ++ p1) ++ '\n' :: ((dataMark ++ p2) ++ '\n' :: ((dataMark ++ p3) ++ '\n' :: trail)))
    rfl (by simp) (by simp)
  unfold streamChat
  rw [e]
  rw [List.nil_append]
  rw [splitNl_line_append _ _ (noNl_append dataMark_noNl n1),
    splitNl_line_append _ _ (noNl_append dataMark_noNl n2),
    splitNl_line_append _ _ (noNl_append dataMark_noNl n3),
    noNl_splitNl trail nt]
  simp [List.filterMap_cons, parseLine_dataMark, h1, h2, h3]

theorem c7_witness :
    jsonParse ("1".toList) = some (Json.num ("1".toList)) ∧
    jsonParse ("[".toList) = none ∧
    jsonParse ("2".toList) = some (Json.num ("2".toList)) ∧
    streamChat [utf8Encode ((dataMark ++ "1".toList) ++ '\n' ::
        ((dataMark ++ "[".toList) ++ '\n' :: ((dataMark ++ "2".toList) ++ '\n' ::
          "data: 3".toList)))] = [Json.num ("1".toList), Json.num ("2".toList)] :=
  ⟨rfl, rfl, rfl,
   c7_malformed_frame_dropped _ _ _ _ _ _ rfl rfl rfl
     (by decide) (by decide) (by decide) (by decide)⟩

/-- C8: when the start request fails with a message containing the
`"already_indexed"` sentinel and the session is not cancelled at the
catch point, the session invokes `onComplete` — and only `onComplete` —
rather than `onError`. -/
theorem c8_already_indexed_sentinel (msg : List Char)
    (st : Nat → Except (List Char) IndexStatus) (c : Option Nat) (fuel : Nat)
    (h1 : containsSub msg alreadyIndexedSentinel = true)
    (h2 : cancelledBy c 1 = false) :
    startIndexing (.error msg) st c fuel = [.completeCb] := by
  simp [startIndexing, h1, h2]

theorem c8_witness :
    startIndexing (.error ("Ticker already_indexed for AAPL".toList))
      (fun _ => .error []) none 1 = [.completeCb] :=
  c8_already_indexed_sentinel ("Ticker already_indexed for AAPL".toList)
    (fun _ => .error []) none 1 (by decide) rfl

/-- C9: a chat turn receiving exactly the `content` events carrying
fragments `frs` (in order) appends exactly two entries to the
transcript — the user entry and a single assistant entry whose text is
the concatenation of the fragments: each fragment replaces the most
recent assistant entry with the running total rather than appending a
new entry. -/
theorem c9_content_fragments_concatenate (prev : List ChatEntry) (u : List Char)
    (frs : List (List Char)) :
    handleSend prev u (frs.map .content) =
      prev ++ [⟨.user, u, none⟩,
        if frs.isEmpty then ⟨.assistant, [], none⟩
        else ⟨.assistant, frs.flatten, some []⟩] := by
  have h := chatFold_content_only frs (prev ++ [⟨.user, u, none⟩]) ⟨.assistant, [], none⟩ [] []
  simp only [List.append_assoc, List.cons_append, List.nil_append] at h ⊢
  exact h

/-- C10: if the status checks report `"processing"` up to check `k` and
the `k`-th status request resolves with `"not_started"` (neither
`"processing"` nor a terminal status), the session issues exactly the
status requests `0, …, k`, invokes neither `onComplete` nor `onError`,
and schedules no further status request: polling halts silently in a
non-terminal state. -/
theorem c10_not_started_silent_halt (s : List Char)
    (st : Nat → Except (List Char) IndexStatus) (k fuel p : Nat) (m : Option (List Char))
    (hproc : ∀ j, j < k → isProcessingResp (st j))
    (hk : st k = .ok ⟨"not_started".toList, p, m⟩) :
    startIndexing (.ok s) st none (k + (fuel + 1)) =
      (List.range (k + 1)).map SessionEv.statusReq := by
  have hu := pollStatus_processing_unroll st k 0 (fuel + 1)
    (by intro j h1 h2; exact hproc j (by omega))
  simp only [Nat.zero_add] at hu
  simp only [startIndexing, hu]
  simp only [pollStatus, cancelledBy, hk]
  rw [List.range_eq_range', List.range'_concat]
  by_cases hz : k = 0 <;> simp [hz]

theorem c10_witness :
    startIndexing (.ok ("started".toList))
      (fun j => if j = 0 then .ok ⟨"processing".toList, 10, none⟩
                else .ok ⟨"not_started".toList, 0, none⟩) none 2
      = (List.range 2).map SessionEv.statusReq :=
  c10_not_started_silent_halt ("started".toList)
    (fun j => if j = 0 then .ok ⟨"processing".toList, 10, none⟩
              else .ok ⟨"not_started".toList, 0, none⟩) 1 0 0 none
    (by intro j hj
        have : j = 0 := by omega
        subst this
        exact ⟨10, none, rfl⟩) rfl

end CompanyAnalyzer
